import Mathlib

/-!
Verification development for the authorship-attribution pipeline of
`src/main.ts` (an Obsidian sync-history highlighting plugin).

JavaScript strings are modelled as `List Char`; JavaScript numbers used as
indices/offsets are modelled as `Int` where they may go negative (the replay
cursor) and as `Nat` elsewhere.  A JavaScript runtime exception (field access
on `undefined`, diffing a missing content) is modelled by `Option`, with
`none` standing for the thrown exception aborting the computation.
-/

/-- `HistoryItem` from src/main.ts lines 12-17: `{mtime, user, size, content?}`.
`content` is optional in the source (`content?: string`). -/
structure HistoryItem where
  mtime : Nat
  user : String
  size : Nat
  content : Option (List Char)
deriving DecidableEq

/-- One run of a character edit script, as produced by `Diff.diffChars`:
a maximal run of equal, inserted or deleted characters. -/
inductive Run where
  | equal (v : List Char)
  | inserted (v : List Char)
  | deleted (v : List Char)
deriving DecidableEq

/-- Whether a run is a deletion (`change.removed` in the source). -/
def Run.isDeleted : Run → Bool
  | .deleted _ => true
  | _ => false

/-- The characters of a run (`change.value`); its length is `change.count`. -/
def Run.val : Run → List Char
  | .equal v => v
  | .inserted v => v
  | .deleted v => v

/-- Concatenation of the equal and inserted runs, in order: the text the
script builds (the later snapshot's content). -/
def eqIns : List Run → List Char
  | [] => []
  | .equal v :: rs => v ++ eqIns rs
  | .inserted v :: rs => v ++ eqIns rs
  | .deleted _ :: rs => eqIns rs

/-- Concatenation of the equal and deleted runs, in order: the text the
script consumes (the earlier snapshot's content). -/
def eqDel : List Run → List Char
  | [] => []
  | .equal v :: rs => v ++ eqDel rs
  | .inserted _ :: rs => eqDel rs
  | .deleted v :: rs => v ++ eqDel rs

/-- Total number of inserted plus deleted characters of a script: the cost
minimised by a character diff. -/
def scriptCost : List Run → Nat
  | [] => 0
  | .equal _ :: rs => scriptCost rs
  | .inserted v :: rs => v.length + scriptCost rs
  | .deleted v :: rs => v.length + scriptCost rs

/-- Prepend an equal character, merging into a leading equal run. -/
def consEqual (a : Char) : List Run → List Run
  | .equal v :: rs => .equal (a :: v) :: rs
  | rs => .equal [a] :: rs

/-- Prepend an inserted character, merging into a leading inserted run. -/
def consInserted (a : Char) : List Run → List Run
  | .inserted v :: rs => .inserted (a :: v) :: rs
  | rs => .inserted [a] :: rs

/-- Prepend a deleted character, merging into a leading deleted run. -/
def consDeleted (a : Char) : List Run → List Run
  | .deleted v :: rs => .deleted (a :: v) :: rs
  | rs => .deleted [a] :: rs

/-- Modelled from the spec: the core of the minimal character-level diff.
The external `diff` npm package's `Diff.diffChars` (used at src/main.ts line
159) is not part of this repository; the spec describes it as computing "a
minimal character-level edit script between `prev.content` and
`next.content`: an ordered sequence of `{equal, inserted, deleted}` runs such
that concatenating `equal`+`inserted` runs reproduces `next.content` exactly,
and `equal`+`deleted` runs reproduce `prev.content` exactly".  `fuel` bounds
the recursion; with `fuel = as.length + bs.length` a base case is always
reached first, and the fuel-exhausted fallback is itself content-preserving. -/
def diffCore : Nat → List Char → List Char → List Run
  | _, [], [] => []
  | _, [], b :: bs => [Run.inserted (b :: bs)]
  | _, a :: as, [] => [Run.deleted (a :: as)]
  | 0, a :: as, b :: bs => [Run.deleted (a :: as), Run.inserted (b :: bs)]
  | Nat.succ fuel, a :: as, b :: bs =>
      if a = b then consEqual a (diffCore fuel as bs)
      else
        let d1 := consDeleted a (diffCore fuel as (b :: bs))
        let d2 := consInserted b (diffCore fuel (a :: as) bs)
        if scriptCost d1 ≤ scriptCost d2 then d1 else d2

/-- Modelled from the spec: `Diff.diffChars prev next` (external library),
a minimal character edit script from `prev` to `next`. -/
def diffChars (prev next : List Char) : List Run :=
  diffCore (prev.length + next.length) prev next

/-- `getCharFromUser` from src/main.ts lines 110-118: maps the two known user
identifiers to their label characters, any other user to `'_'`. -/
def getCharFromUser (user : String) : Char :=
  if user == "bean_machine" then 'b'
  else if user == "Bident-of-Thassa.local" then 'T'
  else '_'

/-- JavaScript `String.prototype.slice` on a list of characters: negative
bounds count from the end, bounds are clamped to `[0, length]`, and an empty
string results when the clamped start is not before the clamped end. -/
def jsSlice (s : List Char) (b e : Int) : List Char :=
  let len : Int := s.length
  let f : Int := if b < 0 then max (len + b) 0 else min b len
  let t : Int := if e < 0 then max (len + e) 0 else min e len
  (s.take t.toNat).drop f.toNat

/-- JavaScript `String.prototype.repeat` of a (possibly empty) string. -/
def jsRepeat (c : List Char) (n : Nat) : List Char :=
  (List.replicate n c).flatten

/-- The padding step of `replace_chars` (src/main.ts lines 121-123):
`if (start_index + length > s.length) s += "_".repeat(...)`. -/
def padBuffer (s : List Char) (start_index : Int) (length : Nat) : List Char :=
  if (start_index + length : Int) > s.length then
    s ++ List.replicate (start_index + (length : Int) - s.length).toNat '_'
  else s

/-- `replace_chars` from src/main.ts lines 120-129: pad the buffer with `'_'`
up to `start_index + length` if needed, then splice `char.repeat(length)`
over the slice `[start_index, start_index + length)`.  `start_index` is an
`Int` because the caller's offset can become negative. -/
def replace_chars (s c : List Char) (start_index : Int) (length : Nat) : List Char :=
  jsSlice (padBuffer s start_index length) 0 start_index ++ jsRepeat c length ++
    jsSlice (padBuffer s start_index length) (start_index + length)
      (padBuffer s start_index length).length

/-- The body of the `diff.forEach` replay at src/main.ts lines 161-173:
inserted runs write the incoming author's label and advance the offset,
deleted runs splice out characters and decrease the offset, equal runs write
the outgoing author's label and advance the offset. -/
def replayChange (next_user prev_user : String) (acc : List Char × Int) (change : Run) :
    List Char × Int :=
  match change with
  | Run.inserted v =>
      (replace_chars acc.1 [getCharFromUser next_user] acc.2 v.length, acc.2 + v.length)
  | Run.deleted v =>
      (replace_chars acc.1 [] acc.2 v.length, acc.2 - v.length)
  | Run.equal v =>
      (replace_chars acc.1 [getCharFromUser prev_user] acc.2 v.length, acc.2 + v.length)

/-- The scan inside `findNextChangeIndex` (src/main.ts lines 102-106): walk
the users from position `i`, returning the first position whose user differs
from `starting_user`, or `fb` (`history.length`) when none does. -/
def scanUsers (starting_user : Option String) (fb : Nat) : List String → Nat → Nat
  | [], _ => fb
  | u :: rest, i => if some u ≠ starting_user then i else scanUsers starting_user fb rest (i + 1)

/-- `findNextChangeIndex` from src/main.ts lines 98-108. -/
def findNextChangeIndex (history : List HistoryItem) (startingIndex : Nat) : Nat :=
  let users := history.map HistoryItem.user
  scanUsers (users.get? startingIndex) history.length (users.drop (startingIndex + 1))
    (startingIndex + 1)

/-- The `while (current_index != history.length)` loop of
`getSegmentFromHistory` (src/main.ts lines 132-138), with explicit fuel.
`change_indices` runs it with fuel `history.length + 1`, which is always
enough (see `boundary_scan_terminates`). -/
def changeIndicesLoop (history : List HistoryItem) : Nat → Nat → List Nat
  | _, 0 => []
  | current_index, Nat.succ fuel =>
      if current_index = history.length then []
      else
        findNextChangeIndex history current_index ::
          changeIndicesLoop history (findNextChangeIndex history current_index) fuel

/-- The `change_indices` array of `getSegmentFromHistory` after line 139:
the loop's output with `history.length` pushed once more. -/
def change_indices (history : List HistoryItem) : List Nat :=
  changeIndicesLoop history 0 (history.length + 1) ++ [history.length]

/-- The boundary-pair loop of `getSegmentFromHistory` (src/main.ts lines
153-176).  Each pair `(b1, b2)` is `(change_indices[i], change_indices[i+1])`;
the source reads `history[b1 - 1]` and `history[b2 - 1]` and throws on an
out-of-range access (modelled by `none`), skips the pair when the two users
coincide, and otherwise diffs the two contents — throwing (`none`) when
either content is absent, as `Diff.diffChars` does on `undefined`. -/
def processPairs (history : List HistoryItem) : List (Nat × Nat) → List Char → Option (List Char)
  | [], segments => some segments
  | (b1, b2) :: rest, segments =>
      if b1 = 0 ∨ b2 = 0 then none
      else
        match history.get? (b1 - 1), history.get? (b2 - 1) with
        | some prev_hist, some next_hist =>
            if prev_hist.user ≠ next_hist.user then
              match prev_hist.content, next_hist.content with
              | some pc, some nc =>
                  processPairs history rest
                    (((diffChars pc nc).foldl
                      (replayChange next_hist.user prev_hist.user) (segments, 0)).1)
              | _, _ => none
            else processPairs history rest segments
        | _, _ => none

/-- `getSegmentFromHistory` from src/main.ts lines 131-178: compute the
change indices, then replay each adjacent boundary pair over the shared
label buffer.  `none` models a thrown exception. -/
def getSegmentFromHistory (history : List HistoryItem) : Option (List Char) :=
  processPairs history ((change_indices history).zip (change_indices history).tail) []

/-- JavaScript 32-bit signed coercion (`ToInt32`), applied by the bitwise
operators in `getUserColor`. -/
def toInt32 (x : Int) : Int :=
  (x + 2 ^ 31) % 2 ^ 32 - 2 ^ 31

/-- `getUserColor` from src/main.ts lines 85-96: the hash loop
`hash = charCodeAt(i) + ((hash << 5) - hash)`, then
`(hash & 0x00ffffff) << 0` rendered as a six-digit hex color.  The
`userColors` cache only memoises this pure computation, so it is dropped. -/
def getUserColor (user : String) : String :=
  let hash : Int := user.data.foldl
    (fun h c => (c.toNat : Int) + (toInt32 (toInt32 h * 32) - h)) 0
  let masked : Nat := ((hash % 2 ^ 32) % 2 ^ 24).toNat
  let digits := Nat.toDigits 16 masked
  String.mk ('#' :: List.replicate (6 - digits.length) '0' ++ digits)

/-- The `color_dict` of `convert_segment_to_groups` (src/main.ts lines
181-188) after its two mutations: `'b' ↦ "red"`, `'T' ↦ "blue"`, `'_'` keeps
its hash color, any other key (including `undefined` for an empty buffer)
looks up as `undefined` (`none`). -/
def color_dict (c : Option Char) : Option String :=
  if c = some 'b' then some "red"
  else if c = some 'T' then some "blue"
  else if c = some '_' then some (getUserColor "underscore")
  else none

/-- An attribution group as built by `convert_segment_to_groups`:
`{start, end, color, char}` with `end` exclusive. -/
structure AttributionGroup where
  start : Nat
  end_ : Nat
  color : Option String
  char : Option Char
deriving DecidableEq

/-- The `for` loop of `convert_segment_to_groups` (src/main.ts lines
193-204): either extend the last group's `end` when the character repeats, or
push a fresh one-character group.  The source mutates the last element of the
groups array; here the last group is carried separately as `cur` and the
finished prefix as `done`. -/
def groupsLoop (done : List AttributionGroup) (cur : AttributionGroup) : List Char → Nat → List AttributionGroup
  | [], _ => done ++ [cur]
  | c :: rest, i =>
      if cur.char = some c then
        groupsLoop done { cur with end_ := cur.end_ + 1 } rest (i + 1)
      else
        groupsLoop (done ++ [cur]) (⟨i, i + 1, color_dict (some c), some c⟩ : AttributionGroup) rest (i + 1)

/-- `convert_segment_to_groups` from src/main.ts lines 180-206.  The groups
array starts as `[{start: 0, end: 1, color: dict[s[0]], char: s[0]}]`; on an
empty buffer `s[0]` is `undefined` (`none`) and that bogus group is returned
unchanged. -/
def convert_segment_to_groups (segments : List Char) : List AttributionGroup :=
  match segments with
  | [] => [⟨0, 1, color_dict none, none⟩]
  | c :: rest => groupsLoop [] ⟨0, 1, color_dict (some c), some c⟩ rest 1

/-- One emitted decoration range (`builder.add(g.start, g.end, mark(color))`
at src/main.ts lines 226-236). -/
structure DecoRange where
  start : Nat
  end_ : Nat
  color : Option String
deriving DecidableEq

/-- The order in which `buildDecorations` hands the fetched history to
`getSegmentFromHistory`: src/main.ts line 223 is `history.reverse()`. -/
def processedHistory (history : List HistoryItem) : List HistoryItem :=
  history.reverse

/-- `buildDecorations` from src/main.ts lines 208-238, from the fetched
history list to the emitted ranges: nothing for an absent or empty history,
nothing for a single snapshot, otherwise reverse, segment, group and emit.
`none` models a thrown exception during segmenting. -/
def buildDecorations (history : List HistoryItem) : Option (List DecoRange) :=
  if history.length = 0 then some []
  else if 1 < history.length then
    match getSegmentFromHistory (processedHistory history) with
    | some segment =>
        some ((convert_segment_to_groups segment).map fun g => ⟨g.start, g.end_, g.color⟩)
    | none => none
  else some []

/-- Modelled from the spec: insertion step of the Snapshot Sequencer's
stable oldest-first ordering ("same snapshots ordered oldest-first, stable
on timestamp ties").  A snapshot is placed before the first strictly-later
one, so equal timestamps keep their original relative order. -/
def insertOldest (x : HistoryItem) : List HistoryItem → List HistoryItem
  | [] => [x]
  | y :: ys => if x.mtime ≤ y.mtime then x :: y :: ys else y :: insertOldest x ys

/-- Modelled from the spec: the Snapshot Sequencer ("Input: snapshots in
arbitrary order. Output: same snapshots ordered oldest-first, stable on
timestamp ties").  No such sort exists in src/main.ts; this definition
follows the spec's words for comparison with `processedHistory`. -/
def specSequencedHistory : List HistoryItem → List HistoryItem
  | [] => []
  | x :: xs => insertOldest x (specSequencedHistory xs)

/-- Total character count of an edit script (the sum of the runs' counts). -/
def runsLen (rs : List Run) : Nat :=
  (rs.map fun r => r.val.length).sum

/-- The gluing relation between adjacent attribution groups: contiguous and
carrying distinct labels. -/
abbrev groupGlue (g₁ g₂ : AttributionGroup) : Prop :=
  g₁.end_ = g₂.start ∧ g₁.char ≠ g₂.char

/-! ### Lemmas about `jsSlice`, `padBuffer`, `replace_chars` -/

lemma jsRepeat_single (ch : Char) (n : Nat) : jsRepeat [ch] n = List.replicate n ch := by
  induction n with
  | zero => rfl
  | succ n ih =>
      simp only [jsRepeat, List.replicate_succ, List.flatten_cons] at ih ⊢
      simp [ih]

lemma jsRepeat_nil (n : Nat) : jsRepeat [] n = [] := by
  induction n with
  | zero => rfl
  | succ n ih => simp only [jsRepeat, List.replicate_succ, List.flatten_cons] at ih ⊢; simp [ih]

lemma jsSlice_zero_take (s : List Char) (e : Nat) :
    jsSlice s 0 (e : Int) = s.take (min e s.length) := by
  simp only [jsSlice]
  have hb : ¬ ((0 : Int) < 0) := by omega
  have he : ¬ ((e : Int) < 0) := by omega
  rw [if_neg hb, if_neg he]
  have h1 : (min (0 : Int) (s.length : Int)).toNat = 0 := by omega
  have h2 : (min (e : Int) (s.length : Int)).toNat = min e s.length := by omega
  rw [h1, h2, List.drop_zero]

lemma jsSlice_to_length (s : List Char) (b : Nat) :
    jsSlice s (b : Int) (s.length : Int) = s.drop b := by
  simp only [jsSlice]
  have hb : ¬ ((b : Int) < 0) := by omega
  have he : ¬ ((s.length : Int) < 0) := by omega
  rw [if_neg hb, if_neg he]
  have h1 : (min (s.length : Int) (s.length : Int)).toNat = s.length := by omega
  have h2 : (min (b : Int) (s.length : Int)).toNat = min b s.length := by omega
  rw [h1, h2, List.take_length]
  rcases le_total b s.length with h | h
  · congr 1
    omega
  · rw [List.drop_eq_nil_of_le h, List.drop_eq_nil_of_le (by omega)]

lemma padBuffer_nat_length (s : List Char) (o L : Nat) :
    (padBuffer s (o : Int) L).length = max s.length (o + L) := by
  simp only [padBuffer]
  split_ifs with h
  · simp only [List.length_append, List.length_replicate]
    omega
  · omega

lemma padBuffer_of_le (s : List Char) (o L : Nat) (h : o + L ≤ s.length) :
    padBuffer s (o : Int) L = s := by
  simp only [padBuffer]
  rw [if_neg (by omega)]

lemma replace_chars_single_length (s : List Char) (ch : Char) (o L : Nat) :
    (replace_chars s [ch] (o : Int) L).length = max s.length (o + L) := by
  simp only [replace_chars]
  have hpad := padBuffer_nat_length s o L
  have hcast : ((o : Int) + (L : Int)) = ((o + L : Nat) : Int) := by push_cast; ring
  rw [jsRepeat_single, hcast, jsSlice_to_length, jsSlice_zero_take]
  simp only [List.length_append, List.length_take, List.length_drop, List.length_replicate]
  omega

lemma replace_chars_delete (s : List Char) (o L : Nat) (h : o + L ≤ s.length) :
    replace_chars s [] (o : Int) L = s.take o ++ s.drop (o + L) := by
  simp only [replace_chars]
  have hcast : ((o : Int) + (L : Int)) = ((o + L : Nat) : Int) := by push_cast; ring
  rw [jsRepeat_nil, hcast, padBuffer_of_le s o L h, jsSlice_to_length, jsSlice_zero_take]
  have hmin : min o s.length = o := by omega
  rw [hmin]
  simp

/-! ### Content preservation of the modelled diff -/

lemma eqIns_consEqual (a : Char) (l : List Run) : eqIns (consEqual a l) = a :: eqIns l := by
  cases l with
  | nil => rfl
  | cons r rs => cases r <;> rfl

lemma eqIns_consInserted (a : Char) (l : List Run) : eqIns (consInserted a l) = a :: eqIns l := by
  cases l with
  | nil => rfl
  | cons r rs => cases r <;> rfl

lemma eqIns_consDeleted (a : Char) (l : List Run) : eqIns (consDeleted a l) = eqIns l := by
  cases l with
  | nil => rfl
  | cons r rs => cases r <;> rfl

lemma eqIns_diffCore : ∀ (fuel : Nat) (as bs : List Char), eqIns (diffCore fuel as bs) = bs := by
  intro fuel
  induction fuel with
  | zero =>
      intro as bs
      cases as <;> cases bs <;> simp [diffCore, eqIns]
  | succ fuel ih =>
      intro as bs
      cases as with
      | nil => cases bs <;> simp [diffCore, eqIns]
      | cons a as =>
          cases bs with
          | nil => simp [diffCore, eqIns]
          | cons b bs =>
              simp only [diffCore]
              split_ifs with hab h12
              · rw [eqIns_consEqual, ih, hab]
              · rw [eqIns_consDeleted, ih]
              · rw [eqIns_consInserted, ih]

lemma eqIns_diffChars (prev next : List Char) : eqIns (diffChars prev next) = next :=
  eqIns_diffCore _ prev next

/-! ### Replay length for deletion-free scripts -/

lemma runsLen_cons (r : Run) (rest : List Run) :
    runsLen (r :: rest) = r.val.length + runsLen rest := by
  simp [runsLen]

lemma runsLen_no_delete (rs : List Run) (h : ∀ r ∈ rs, r.isDeleted = false) :
    runsLen rs = (eqIns rs).length := by
  induction rs with
  | nil => rfl
  | cons r rest ih =>
      have hr := h r (List.mem_cons_self r rest)
      have hrest := ih fun x hx => h x (List.mem_cons_of_mem _ hx)
      cases r with
      | equal v =>
          simp only [runsLen, List.map_cons, List.sum_cons, eqIns, List.length_append,
            Run.val] at hrest ⊢
          omega
      | inserted v =>
          simp only [runsLen, List.map_cons, List.sum_cons, eqIns, List.length_append,
            Run.val] at hrest ⊢
          omega
      | deleted v => simp [Run.isDeleted] at hr

lemma replayChange_write (nu pu : String) (s : List Char) (o : Nat) (r : Run)
    (hr : r.isDeleted = false) :
    (replayChange nu pu (s, (o : Int)) r).1.length = max s.length (o + r.val.length) ∧
    (replayChange nu pu (s, (o : Int)) r).2 = ((o + r.val.length : Nat) : Int) := by
  cases r with
  | equal v =>
      refine ⟨replace_chars_single_length s _ o v.length, ?_⟩
      simp only [replayChange, Run.val]
      push_cast
      ring
  | inserted v =>
      refine ⟨replace_chars_single_length s _ o v.length, ?_⟩
      simp only [replayChange, Run.val]
      push_cast
      ring
  | deleted v => simp [Run.isDeleted] at hr

lemma replay_fold_no_delete (nu pu : String) :
    ∀ (runs : List Run), (∀ r ∈ runs, r.isDeleted = false) →
    ∀ (s : List Char) (o : Nat), o ≤ s.length →
      (runs.foldl (replayChange nu pu) (s, (o : Int))).1.length =
        max s.length (o + runsLen runs) := by
  intro runs
  induction runs with
  | nil =>
      intro _ s o ho
      simp [runsLen, Nat.max_eq_left ho]
  | cons r rest ih =>
      intro h s o ho
      have hr := h r (List.mem_cons_self r rest)
      have hrest := fun x hx => h x (List.mem_cons_of_mem r hx)
      obtain ⟨hl, ho'⟩ := replayChange_write nu pu s o r hr
      have hpair : replayChange nu pu (s, (o : Int)) r =
          ((replayChange nu pu (s, (o : Int)) r).1, ((o + r.val.length : Nat) : Int)) := by
        rw [Prod.ext_iff]
        exact ⟨rfl, ho'⟩
      rw [List.foldl_cons, hpair]
      have hih := ih hrest (replayChange nu pu (s, (o : Int)) r).1 (o + r.val.length)
        (by rw [hl]; omega)
      rw [hih, hl, runsLen_cons]
      omega

/-! ### The boundary scan: progress and termination -/

lemma scanUsers_cases (su : Option String) (fb : Nat) :
    ∀ (l : List String) (i : Nat),
      scanUsers su fb l i = fb ∨
        (i ≤ scanUsers su fb l i ∧ scanUsers su fb l i < i + l.length) := by
  intro l
  induction l with
  | nil => intro i; left; rfl
  | cons u rest ih =>
      intro i
      by_cases hu : some u ≠ su
      · right
        simp only [scanUsers, if_pos hu]
        simp
      · rw [show scanUsers su fb (u :: rest) i = scanUsers su fb rest (i + 1) by
          simp only [scanUsers, if_neg hu]]
        rcases ih (i + 1) with h | ⟨h1, h2⟩
        · left; exact h
        · right
          refine ⟨by omega, ?_⟩
          simp only [List.length_cons]
          omega

lemma findNextChangeIndex_progress (history : List HistoryItem) (c : Nat)
    (h : c < history.length) :
    c < findNextChangeIndex history c ∧ findNextChangeIndex history c ≤ history.length := by
  simp only [findNextChangeIndex]
  have hlen : ((history.map HistoryItem.user).drop (c + 1)).length = history.length - (c + 1) := by
    simp [List.length_drop]
  rcases scanUsers_cases ((history.map HistoryItem.user).get? c) history.length
      ((history.map HistoryItem.user).drop (c + 1)) (c + 1) with hc | ⟨h1, h2⟩
  · rw [hc]
    exact ⟨h, le_refl _⟩
  · rw [hlen] at h2
    exact ⟨by omega, by omega⟩

lemma changeIndicesLoop_spec (history : List HistoryItem) :
    ∀ (fuel c : Nat), history.length - c < fuel → c ≤ history.length →
      List.Chain' (· < ·) (c :: changeIndicesLoop history c fuel) ∧
      (∀ x ∈ changeIndicesLoop history c fuel, x ≤ history.length) ∧
      (c < history.length →
        (changeIndicesLoop history c fuel).getLast? = some history.length) ∧
      (c = history.length → changeIndicesLoop history c fuel = []) := by
  intro fuel
  induction fuel with
  | zero => intro c h1 _; omega
  | succ fuel ih =>
      intro c h1 h2
      by_cases hc : c = history.length
      · rw [show changeIndicesLoop history c (fuel + 1) = [] by
          simp [changeIndicesLoop, hc]]
        exact ⟨List.chain'_singleton c, by simp, fun hlt => by omega, fun _ => rfl⟩
      · have hlt : c < history.length := lt_of_le_of_ne h2 hc
        have hp := findNextChangeIndex_progress history c hlt
        rw [show changeIndicesLoop history c (fuel + 1) =
            findNextChangeIndex history c ::
              changeIndicesLoop history (findNextChangeIndex history c) fuel by
          simp [changeIndicesLoop, hc]]
        have hih := ih (findNextChangeIndex history c) (by omega) hp.2
        refine ⟨?_, ?_, ?_, ?_⟩
        · exact List.chain'_cons.mpr ⟨hp.1, hih.1⟩
        · intro x hx
          rcases List.mem_cons.mp hx with hx | hx
          · omega
          · exact hih.2.1 x hx
        · intro _
          by_cases hnext : findNextChangeIndex history c = history.length
          · rw [hih.2.2.2 hnext]
            simp [hnext]
          · have hrest := hih.2.2.1 (lt_of_le_of_ne hp.2 hnext)
            cases hr : changeIndicesLoop history (findNextChangeIndex history c) fuel with
            | nil => rw [hr] at hrest; simp at hrest
            | cons y ys =>
                rw [hr] at hrest
                rw [List.getLast?_cons_cons, hrest]
        · intro hceq; omega

lemma findNextChangeIndex_of_ge (history : List HistoryItem) (c : Nat)
    (h : history.length ≤ c) : findNextChangeIndex history c = history.length := by
  simp only [findNextChangeIndex]
  rw [List.drop_eq_nil_of_le (by simp; omega)]
  rfl

lemma changeIndicesLoop_at_length (history : List HistoryItem) :
    ∀ (fuel : Nat), changeIndicesLoop history history.length fuel = [] := by
  intro fuel
  cases fuel with
  | zero => rfl
  | succ fuel => simp [changeIndicesLoop]

lemma changeIndicesLoop_fuel (history : List HistoryItem) :
    ∀ (f₁ f₂ c : Nat), history.length - c < f₁ → history.length - c < f₂ →
      changeIndicesLoop history c f₁ = changeIndicesLoop history c f₂ := by
  intro f₁
  induction f₁ with
  | zero => intro f₂ c h1 _; omega
  | succ f₁ ih =>
      intro f₂ c h1 h2
      cases f₂ with
      | zero => omega
      | succ f₂ =>
          by_cases hc : c = history.length
          · simp [changeIndicesLoop, hc]
          · rw [show changeIndicesLoop history c (f₁ + 1) =
                findNextChangeIndex history c ::
                  changeIndicesLoop history (findNextChangeIndex history c) f₁ by
              simp [changeIndicesLoop, hc]]
            rw [show changeIndicesLoop history c (f₂ + 1) =
                findNextChangeIndex history c ::
                  changeIndicesLoop history (findNextChangeIndex history c) f₂ by
              simp [changeIndicesLoop, hc]]
            rcases Nat.lt_or_ge c history.length with hlt | hge
            · have hp := findNextChangeIndex_progress history c hlt
              rw [ih f₂ (findNextChangeIndex history c) (by omega) (by omega)]
            · rw [findNextChangeIndex_of_ge history c hge,
                changeIndicesLoop_at_length, changeIndicesLoop_at_length]

/-! ### The run-length compressor invariant -/

lemma head?_map_start_concat (l : List AttributionGroup) (x : AttributionGroup) (h : l ≠ []) :
    (l ++ [x]).head?.map AttributionGroup.start = l.head?.map AttributionGroup.start := by
  cases l with
  | nil => contradiction
  | cons a as => simp

lemma groupsLoop_invariant :
    ∀ (s : List Char) (done : List AttributionGroup) (cur : AttributionGroup) (i : Nat),
      List.Chain' groupGlue (done ++ [cur]) →
      (∀ g ∈ done ++ [cur], g.start < g.end_) →
      (done ++ [cur]).head?.map AttributionGroup.start = some 0 →
      cur.end_ = i →
      List.Chain' groupGlue (groupsLoop done cur s i) ∧
      (∀ g ∈ groupsLoop done cur s i, g.start < g.end_) ∧
      (groupsLoop done cur s i).head?.map AttributionGroup.start = some 0 ∧
      (groupsLoop done cur s i).getLast?.map AttributionGroup.end_ = some (i + s.length) := by
  intro s
  induction s with
  | nil =>
      intro done cur i hchain hpos hhead hend
      simp only [groupsLoop, List.length_nil, Nat.add_zero]
      refine ⟨hchain, hpos, hhead, ?_⟩
      rw [List.getLast?_concat]
      simp [hend]
  | cons c rest ih =>
      intro done cur i hchain hpos hhead hend
      by_cases hc : cur.char = some c
      · rw [show groupsLoop done cur (c :: rest) i =
            groupsLoop done { cur with end_ := cur.end_ + 1 } rest (i + 1) by
          simp [groupsLoop, hc]]
        have hchain' : List.Chain' groupGlue (done ++ [{ cur with end_ := cur.end_ + 1 }]) := by
          rcases List.chain'_append.mp hchain with ⟨h1, _, h3⟩
          refine List.chain'_append.mpr ⟨h1, List.chain'_singleton _, ?_⟩
          intro x hx y hy
          simp only [List.head?_cons, Option.mem_def, Option.some.injEq] at hy
          have hcur := h3 x hx cur (by simp)
          rw [← hy]
          exact hcur
        have hpos' : ∀ g ∈ done ++ [{ cur with end_ := cur.end_ + 1 }], g.start < g.end_ := by
          intro g hg
          rcases List.mem_append.mp hg with hg | hg
          · exact hpos g (List.mem_append_left _ hg)
          · have hcur := hpos cur (List.mem_append_right _ (by simp))
            simp only [List.mem_singleton] at hg
            subst hg
            simp only []
            omega
        have hhead' : (done ++ [{ cur with end_ := cur.end_ + 1 }]).head?.map
            AttributionGroup.start = some 0 := by
          cases done with
          | nil => simpa using hhead
          | cons d ds => simpa using hhead
        have hres := ih done { cur with end_ := cur.end_ + 1 } (i + 1) hchain' hpos' hhead'
          (by simp [hend])
        refine ⟨hres.1, hres.2.1, hres.2.2.1, ?_⟩
        have h := hres.2.2.2
        rw [show i + 1 + rest.length = i + (c :: rest).length by simp [List.length_cons]; omega]
          at h
        exact h
      · rw [show groupsLoop done cur (c :: rest) i =
            groupsLoop (done ++ [cur]) (⟨i, i + 1, color_dict (some c), some c⟩ : AttributionGroup) rest (i + 1) by
          simp [groupsLoop, hc]]
        have hchain' : List.Chain' groupGlue
            ((done ++ [cur]) ++ [(⟨i, i + 1, color_dict (some c), some c⟩ : AttributionGroup)]) := by
          refine List.chain'_append.mpr ⟨hchain, List.chain'_singleton _, ?_⟩
          intro x hx y hy
          rw [List.getLast?_concat] at hx
          simp only [Option.mem_def, Option.some.injEq] at hx
          simp only [List.head?_cons, Option.mem_def, Option.some.injEq] at hy
          subst hx
          rw [← hy]
          exact ⟨hend, by simpa using hc⟩
        have hpos' : ∀ g ∈ (done ++ [cur]) ++ [(⟨i, i + 1, color_dict (some c), some c⟩ : AttributionGroup)],
            g.start < g.end_ := by
          intro g hg
          rcases List.mem_append.mp hg with hg | hg
          · exact hpos g hg
          · simp only [List.mem_singleton] at hg
            subst hg
            simp
        have hhead' : ((done ++ [cur]) ++ [(⟨i, i + 1, color_dict (some c), some c⟩ : AttributionGroup)]).head?.map
            AttributionGroup.start = some 0 := by
          rw [head?_map_start_concat _ _ (by simp)]
          exact hhead
        have hres := ih (done ++ [cur]) (⟨i, i + 1, color_dict (some c), some c⟩ : AttributionGroup) (i + 1)
          hchain' hpos' hhead' rfl
        refine ⟨hres.1, hres.2.1, hres.2.2.1, ?_⟩
        have h := hres.2.2.2
        rw [show i + 1 + rest.length = i + (c :: rest).length by simp [List.length_cons]; omega]
          at h
        exact h


/-! ### Claim C1: the three-snapshot last-write-wins scenario -/

/-- C1 counterexample: for the oldest-first history A:"ab", B:"axb", A:"axyb"
(A = bean_machine, label 'b'; B = Bident-of-Thassa.local, label 'T'), the
final buffer is not A,B,A,A (chars "bTbb") as the claim states. -/
theorem threeSnapshot_buffer_ne_spec :
    getSegmentFromHistory
      [⟨0, "bean_machine", 2, some ['a', 'b']⟩,
       ⟨0, "Bident-of-Thassa.local", 3, some ['a', 'x', 'b']⟩,
       ⟨0, "bean_machine", 4, some ['a', 'x', 'y', 'b']⟩] ≠
      some ['b', 'T', 'b', 'b'] := by decide

/-- C1 (amended): for the history A:"ab", B:"axb", A:"axyb", the first
boundary pair leaves the buffer "bTb" (A,B,A over "axb"); the second pair
replays over the whole buffer and its relabeling overwrites the first pair's
labels (last-write-wins), giving the final buffer "TTbT": index 0 → B,
index 1 → B, index 2 → A, index 3 → B (equal spans take the outgoing
author). -/
theorem threeSnapshot_buffer_value :
    processPairs
      [⟨0, "bean_machine", 2, some ['a', 'b']⟩,
       ⟨0, "Bident-of-Thassa.local", 3, some ['a', 'x', 'b']⟩,
       ⟨0, "bean_machine", 4, some ['a', 'x', 'y', 'b']⟩] [(1, 2)] [] =
      some ['b', 'T', 'b'] ∧
    getSegmentFromHistory
      [⟨0, "bean_machine", 2, some ['a', 'b']⟩,
       ⟨0, "Bident-of-Thassa.local", 3, some ['a', 'x', 'b']⟩,
       ⟨0, "bean_machine", 4, some ['a', 'x', 'y', 'b']⟩] =
      some ['T', 'T', 'b', 'T'] := by
  constructor <;> decide

/-! ### Claim C2: buffer length after a pair's replay -/

/-- C2 counterexample: for the history "abcde" (A) then "ace" (B), the
resulting buffer is "b" of length 1, not 3 = |"ace"|: after each deletion
the offset moves back by the deleted count, so subsequent equal runs
overwrite earlier positions instead of extending the buffer. -/
theorem deletion_pair_length_ne_three :
    getSegmentFromHistory
      [⟨0, "bean_machine", 5, some ['a', 'b', 'c', 'd', 'e']⟩,
       ⟨0, "Bident-of-Thassa.local", 3, some ['a', 'c', 'e']⟩] = some ['b'] ∧
    (getSegmentFromHistory
      [⟨0, "bean_machine", 5, some ['a', 'b', 'c', 'd', 'e']⟩,
       ⟨0, "Bident-of-Thassa.local", 3, some ['a', 'c', 'e']⟩]).map List.length ≠
      some 3 := by
  constructor <;> decide

/-- C2 (amended): the invariant holds exactly for the deletion-free case:
if a boundary pair's edit script contains no deleted run and the buffer
before the pair is no longer than the later snapshot's content, then after
the replay the buffer's length equals the later content's length.  (With
deleted runs it can fall short, as the "abcde" → "ace" counterexample
shows.) -/
theorem replay_no_deletion_length (pu nu : String) (pc nc s : List Char)
    (hnd : ∀ r ∈ diffChars pc nc, r.isDeleted = false) (hs : s.length ≤ nc.length) :
    (((diffChars pc nc).foldl (replayChange nu pu) (s, 0)).1).length = nc.length := by
  have hlen := replay_fold_no_delete nu pu (diffChars pc nc) hnd s 0 (Nat.zero_le _)
  rw [Nat.cast_zero] at hlen
  rw [hlen, runsLen_no_delete _ hnd, eqIns_diffChars]
  omega

/-- C2 witness: the "hello" → "hello world" pair satisfies the amended
claim's hypotheses, and the replayed buffer has length 11. -/
theorem replay_no_deletion_length_example :
    (∀ r ∈ diffChars ['h', 'e', 'l', 'l', 'o']
        ['h', 'e', 'l', 'l', 'o', ' ', 'w', 'o', 'r', 'l', 'd'], r.isDeleted = false) ∧
    ([] : List Char).length ≤
      (['h', 'e', 'l', 'l', 'o', ' ', 'w', 'o', 'r', 'l', 'd'] : List Char).length ∧
    (((diffChars ['h', 'e', 'l', 'l', 'o']
        ['h', 'e', 'l', 'l', 'o', ' ', 'w', 'o', 'r', 'l', 'd']).foldl
      (replayChange "Bident-of-Thassa.local" "bean_machine") ([], 0)).1).length =
      (['h', 'e', 'l', 'l', 'o', ' ', 'w', 'o', 'r', 'l', 'd'] : List Char).length :=
  ⟨by decide, by decide,
   replay_no_deletion_length "bean_machine" "Bident-of-Thassa.local" _ _ _
     (by decide) (by decide)⟩

/-! ### Claim C3: the deleted-run cursor semantics -/

/-- C3 counterexample: in the replay of the "abcde" → "ace" script, the
second run is deleted "b"; the offset before it is 1 and after it is 0,
so the cursor is not "unchanged net of the removal" — the following run
writes one position to the left of the removed span. -/
theorem deleted_run_offset_decreases :
    (diffChars ['a', 'b', 'c', 'd', 'e'] ['a', 'c', 'e']).get? 1 =
      some (Run.deleted ['b']) ∧
    (((diffChars ['a', 'b', 'c', 'd', 'e'] ['a', 'c', 'e']).take 1).foldl
      (replayChange "Bident-of-Thassa.local" "bean_machine") ([], 0)).2 = 1 ∧
    (((diffChars ['a', 'b', 'c', 'd', 'e'] ['a', 'c', 'e']).take 2).foldl
      (replayChange "Bident-of-Thassa.local" "bean_machine") ([], 0)).2 = 0 := by
  refine ⟨by decide, by decide, by decide⟩

/-- C3 (amended): a deleted(L) run at an in-range offset removes exactly the
L characters at [offset, offset+L) from the buffer but then decreases the
offset by L, so the immediately following run writes starting L positions to
the left of where the removed span was, not right where it was. -/
theorem replay_deleted_run (nu pu : String) (s : List Char) (off : Int) (v : List Char)
    (h0 : 0 ≤ off) (h1 : off + v.length ≤ (s.length : Int)) :
    replayChange nu pu (s, off) (Run.deleted v) =
      (s.take off.toNat ++ s.drop (off.toNat + v.length), off - v.length) := by
  obtain ⟨o, rfl⟩ : ∃ o : Nat, off = (o : Int) := ⟨off.toNat, (Int.toNat_of_nonneg h0).symm⟩
  simp only [replayChange]
  rw [replace_chars_delete s o v.length (by omega)]
  simp

/-- C3 witness: deleting "x" at offset 1 of "abc" yields "ac" with the
offset moved back to 0. -/
theorem replay_deleted_run_example :
    ((0 : Int) ≤ 1) ∧
    ((1 : Int) + ((['x'] : List Char).length : Int) ≤ ((['a', 'b', 'c'] : List Char).length : Int)) ∧
    replayChange "u" "v" (['a', 'b', 'c'], 1) (Run.deleted ['x']) = (['a', 'c'], 0) :=
  ⟨by decide, by decide,
   by rw [replay_deleted_run "u" "v" ['a', 'b', 'c'] 1 ['x'] (by decide) (by decide)]; decide⟩

/-! ### Claim C4: shape of the change-indices list -/

/-- C4 counterexample: for a single-snapshot history the change-indices list
is [1, 1] — the sentinel 1 = history.length appears twice (once pushed by
the scan loop, once appended), so the list is not strictly increasing and
does not end with a single sentinel. -/
theorem change_indices_singleton_dup :
    change_indices [⟨0, "bean_machine", 0, some []⟩] = [1, 1] ∧
    (change_indices [⟨0, "bean_machine", 0, some []⟩]).count 1 ≠ 1 := by
  constructor <;> decide

/-- C4 (amended): for a nonempty history the scan loop's output (all of
change_indices except the appended sentinel) is strictly increasing and
already ends with history.length; the appended sentinel duplicates it, so
history.length occurs twice at the end of the full list. -/
theorem change_indices_shape (history : List HistoryItem) (h : history ≠ []) :
    List.Chain' (· < ·) (change_indices history).dropLast ∧
    (change_indices history).dropLast.getLast? = some history.length ∧
    (change_indices history).getLast? = some history.length := by
  have h0 : 0 < history.length := List.length_pos.mpr h
  have hspec := changeIndicesLoop_spec history (history.length + 1) 0 (by omega) (by omega)
  unfold change_indices
  rw [List.dropLast_concat, List.getLast?_concat]
  exact ⟨(List.chain'_cons'.mp hspec.1).2, hspec.2.2.1 h0, rfl⟩

/-- C4 witness: the single-snapshot history is nonempty and its
change-indices list [1, 1] has a strictly increasing front [1] ending with
the sentinel 1, which the sentinel duplicates. -/
theorem change_indices_shape_example :
    ([⟨0, "Bident-of-Thassa.local", 0, some []⟩] : List HistoryItem) ≠ [] ∧
    (List.Chain' (· < ·)
        (change_indices [⟨0, "Bident-of-Thassa.local", 0, some []⟩]).dropLast ∧
      (change_indices [⟨0, "Bident-of-Thassa.local", 0, some []⟩]).dropLast.getLast? =
        some ([⟨0, "Bident-of-Thassa.local", 0, some []⟩] : List HistoryItem).length ∧
      (change_indices [⟨0, "Bident-of-Thassa.local", 0, some []⟩]).getLast? =
        some ([⟨0, "Bident-of-Thassa.local", 0, some []⟩] : List HistoryItem).length) :=
  ⟨by decide, change_indices_shape _ (by decide)⟩

/-! ### Claim C5: the partition invariant of the compressor -/

/-- C5 counterexample: on the empty buffer (N = 0) the compressor returns a
single group spanning [0, 1) with an undefined label and color, so the
groups' union is not the empty range [0, 0). -/
theorem groups_empty_buffer_bogus :
    convert_segment_to_groups [] = [⟨0, 1, none, none⟩] ∧
    ¬ (∀ g ∈ convert_segment_to_groups [], g.end_ ≤ 0) := by
  constructor <;> decide

/-- C5 (amended): for every nonempty buffer the groups are contiguous with
no two adjacent groups sharing a label (`groupGlue`), every group is
nonempty, the first group starts at 0 and the last ends at the buffer
length — i.e. they are sorted, non-overlapping, and partition [0, N) for
N ≥ 1.  For N = 0 the invariant fails (a bogus [0, 1) group is returned). -/
theorem groups_partition (s : List Char) (hs : s ≠ []) :
    List.Chain' groupGlue (convert_segment_to_groups s) ∧
    (∀ g ∈ convert_segment_to_groups s, g.start < g.end_) ∧
    (convert_segment_to_groups s).head?.map AttributionGroup.start = some 0 ∧
    (convert_segment_to_groups s).getLast?.map AttributionGroup.end_ = some s.length := by
  cases s with
  | nil => exact absurd rfl hs
  | cons c rest =>
      have hres := groupsLoop_invariant rest []
        (⟨0, 1, color_dict (some c), some c⟩ : AttributionGroup) 1
        (by simp) (by intro g hg; simp at hg; subst hg; simp) (by simp) rfl
      simp only [convert_segment_to_groups]
      refine ⟨hres.1, hres.2.1, hres.2.2.1, ?_⟩
      have h := hres.2.2.2
      rw [show 1 + rest.length = (c :: rest).length by simp [List.length_cons]; omega] at h
      exact h

/-- C5 witness: the buffer "ba" is nonempty and its two groups [0,1) and
[1,2) satisfy the partition invariant. -/
theorem groups_partition_example :
    (['b', 'a'] : List Char) ≠ [] ∧
    (List.Chain' groupGlue (convert_segment_to_groups ['b', 'a']) ∧
      (∀ g ∈ convert_segment_to_groups ['b', 'a'], g.start < g.end_) ∧
      (convert_segment_to_groups ['b', 'a']).head?.map AttributionGroup.start = some 0 ∧
      (convert_segment_to_groups ['b', 'a']).getLast?.map AttributionGroup.end_ =
        some (['b', 'a'] : List Char).length) :=
  ⟨by decide, groups_partition ['b', 'a'] (by decide)⟩

/-! ### Claim C6: the order in which snapshots are processed -/

/-- C6 counterexample: an input already in oldest-first order (timestamps
1 then 2) is processed in reversed order (2 then 1), not in the stable
oldest-first order by timestamp that the claim states: the pipeline only
ever calls `history.reverse()` and performs no timestamp sort. -/
theorem sequencing_not_stable_sort :
    processedHistory [⟨1, "a", 0, none⟩, ⟨2, "b", 0, none⟩] =
      [⟨2, "b", 0, none⟩, ⟨1, "a", 0, none⟩] ∧
    specSequencedHistory [⟨1, "a", 0, none⟩, ⟨2, "b", 0, none⟩] =
      [⟨1, "a", 0, none⟩, ⟨2, "b", 0, none⟩] ∧
    processedHistory [⟨1, "a", 0, none⟩, ⟨2, "b", 0, none⟩] ≠
      specSequencedHistory [⟨1, "a", 0, none⟩, ⟨2, "b", 0, none⟩] := by
  refine ⟨by decide, by decide, by decide⟩

/-- C6 (amended): the pipeline does process the same snapshots (the
processed list is a permutation of the fetched one), but in reverse of the
fetched order — position i holds the snapshot fetched at position
length-1-i — with no timestamp sort; the order is oldest-first only if the
backend returns the history newest-first, and equal-timestamp snapshots have
their relative order reversed, not preserved. -/
theorem sequencing_is_reverse (history : List HistoryItem) :
    (processedHistory history).Perm history ∧
    ∀ i : Nat, i < history.length →
      (processedHistory history)[i]? = history[history.length - 1 - i]? := by
  refine ⟨List.reverse_perm history, ?_⟩
  intro i hi
  unfold processedHistory
  rw [List.getElem?_reverse hi]

/-- C6 witness: for a concrete two-snapshot list, the processed list is a
permutation of the input and its first element is the input's last. -/
theorem sequencing_is_reverse_example :
    (processedHistory [⟨1, "a", 0, none⟩, ⟨2, "b", 0, none⟩]).Perm
      [⟨1, "a", 0, none⟩, ⟨2, "b", 0, none⟩] ∧
    (0 : Nat) < ([⟨1, "a", 0, none⟩, ⟨2, "b", 0, none⟩] : List HistoryItem).length ∧
    (processedHistory [⟨1, "a", 0, none⟩, ⟨2, "b", 0, none⟩])[(0 : Nat)]? =
      ([⟨1, "a", 0, none⟩, ⟨2, "b", 0, none⟩] : List HistoryItem)[
        ([⟨1, "a", 0, none⟩, ⟨2, "b", 0, none⟩] : List HistoryItem).length - 1 - 0]? :=
  ⟨(sequencing_is_reverse [⟨1, "a", 0, none⟩, ⟨2, "b", 0, none⟩]).1, by decide,
   (sequencing_is_reverse [⟨1, "a", 0, none⟩, ⟨2, "b", 0, none⟩]).2 0 (by decide)⟩

/-! ### Claim C7: the hello-world append scenario -/

/-- C7: for the history A:"hello" then B:"hello world" (A = bean_machine,
label 'b'; B = Bident-of-Thassa.local, label 'T'), the pipeline yields
exactly the two groups [0,5) labeled A and [5,11) labeled B. -/
theorem hello_world_groups :
    (getSegmentFromHistory
      [⟨0, "bean_machine", 5, some ['h', 'e', 'l', 'l', 'o']⟩,
       ⟨0, "Bident-of-Thassa.local", 11,
        some ['h', 'e', 'l', 'l', 'o', ' ', 'w', 'o', 'r', 'l', 'd']⟩]).map
      convert_segment_to_groups =
    some [⟨0, 5, some "red", some 'b'⟩, ⟨5, 11, some "blue", some 'T'⟩] := by decide

/-! ### Claim C8: empty and single-snapshot histories -/

/-- C8: a history with zero or one snapshots produces no decorations,
identically to the no-history case (and no attribution groups are ever
computed for it, since the grouping branch requires length > 1). -/
theorem short_history_no_decorations (history : List HistoryItem)
    (h : history.length ≤ 1) :
    buildDecorations history = some [] ∧ buildDecorations history = buildDecorations [] := by
  cases history with
  | nil => exact ⟨rfl, rfl⟩
  | cons x rest =>
      cases rest with
      | nil => exact ⟨rfl, rfl⟩
      | cons y rest2 => simp [List.length_cons] at h

/-- C8 witness: a concrete single-snapshot history yields no decorations,
like the empty history. -/
theorem short_history_no_decorations_example :
    ([⟨0, "u", 0, none⟩] : List HistoryItem).length ≤ 1 ∧
    (buildDecorations [⟨0, "u", 0, none⟩] = some [] ∧
      buildDecorations [⟨0, "u", 0, none⟩] = buildDecorations []) :=
  ⟨by decide, short_history_no_decorations [⟨0, "u", 0, none⟩] (by decide)⟩

/-! ### Claim C9: missing snapshot content -/

/-- C9 counterexample: with the first snapshot's content missing, the claim
predicts the first boundary pair is skipped and the second pair (whose
contents are both present) still relabels the buffer to "TTbT"; instead the
whole segment computation throws (returns none) and no pair proceeds. -/
theorem missing_content_aborts_all :
    getSegmentFromHistory
      [⟨0, "bean_machine", 0, none⟩,
       ⟨0, "Bident-of-Thassa.local", 3, some ['a', 'x', 'b']⟩,
       ⟨0, "bean_machine", 4, some ['a', 'x', 'y', 'b']⟩] = none ∧
    getSegmentFromHistory
      [⟨0, "bean_machine", 0, none⟩,
       ⟨0, "Bident-of-Thassa.local", 3, some ['a', 'x', 'b']⟩,
       ⟨0, "bean_machine", 4, some ['a', 'x', 'y', 'b']⟩] ≠
      some ['T', 'T', 'b', 'T'] := by
  constructor <;> decide

/-- C9 (amended): if any boundary pair in the worklist has differing users
and a missing content on either side, the whole pair-processing computation
returns none (the `Diff.diffChars` call throws and the rebuild aborts) —
no other pair contributes, rather than the faulty pair alone being
skipped. -/
theorem missing_content_returns_none (history : List HistoryItem) (b1 b2 : Nat)
    (prev next : HistoryItem) (hb1 : b1 ≠ 0) (hb2 : b2 ≠ 0)
    (hp : history.get? (b1 - 1) = some prev) (hn : history.get? (b2 - 1) = some next)
    (hu : prev.user ≠ next.user) (hc : prev.content = none ∨ next.content = none) :
    ∀ (ps : List (Nat × Nat)) (s : List Char), (b1, b2) ∈ ps →
      processPairs history ps s = none := by
  intro ps
  induction ps with
  | nil => intro s hmem; simp at hmem
  | cons p rest ih =>
      intro s hmem
      rcases List.mem_cons.mp hmem with heq | hmem'
      · subst heq
        simp only [processPairs]
        rw [if_neg (by omega), hp, hn]
        dsimp only
        rw [if_pos hu]
        rcases hc with h | h
        · rw [h]
        · rw [h]
          cases hprev : prev.content <;> rfl
      · obtain ⟨a1, a2⟩ := p
        simp only [processPairs]
        by_cases hz : a1 = 0 ∨ a2 = 0
        · rw [if_pos hz]
        · rw [if_neg hz]
          cases hga : history.get? (a1 - 1) with
          | none => rfl
          | some pa =>
              cases hgb : history.get? (a2 - 1) with
              | none => rfl
              | some na =>
                  dsimp only
                  by_cases hus : pa.user ≠ na.user
                  · rw [if_pos hus]
                    cases hca : pa.content with
                    | none => cases hcb : na.content <;> rfl
                    | some pc =>
                        cases hcb : na.content with
                        | none => rfl
                        | some nc => exact ih _ hmem'
                  · rw [if_neg hus]
                    exact ih s hmem'

/-- C9 witness: a concrete two-snapshot worklist whose only pair has
differing users and a missing later content makes the whole computation
return none. -/
theorem missing_content_returns_none_example :
    ((1 : Nat) ≠ 0) ∧ ((2 : Nat) ≠ 0) ∧
    ([⟨0, "bean_machine", 2, some ['a', 'b']⟩,
      ⟨0, "Bident-of-Thassa.local", 0, none⟩] : List HistoryItem).get? 0 =
      some ⟨0, "bean_machine", 2, some ['a', 'b']⟩ ∧
    ([⟨0, "bean_machine", 2, some ['a', 'b']⟩,
      ⟨0, "Bident-of-Thassa.local", 0, none⟩] : List HistoryItem).get? 1 =
      some ⟨0, "Bident-of-Thassa.local", 0, none⟩ ∧
    (⟨0, "bean_machine", 2, some ['a', 'b']⟩ : HistoryItem).user ≠
      (⟨0, "Bident-of-Thassa.local", 0, none⟩ : HistoryItem).user ∧
    ((⟨0, "bean_machine", 2, some ['a', 'b']⟩ : HistoryItem).content = none ∨
      (⟨0, "Bident-of-Thassa.local", 0, none⟩ : HistoryItem).content = none) ∧
    ((1, 2) ∈ ([(1, 2)] : List (Nat × Nat))) ∧
    processPairs
      [⟨0, "bean_machine", 2, some ['a', 'b']⟩,
       ⟨0, "Bident-of-Thassa.local", 0, none⟩] [(1, 2)] [] = none :=
  ⟨by decide, by decide, by decide, by decide, by decide, by decide, by decide,
   missing_content_returns_none
     [⟨0, "bean_machine", 2, some ['a', 'b']⟩, ⟨0, "Bident-of-Thassa.local", 0, none⟩]
     1 2 ⟨0, "bean_machine", 2, some ['a', 'b']⟩ ⟨0, "Bident-of-Thassa.local", 0, none⟩
     (by decide) (by decide) (by decide) (by decide) (by decide) (by decide)
     [(1, 2)] [] (by decide)⟩

/-! ### Claim C10: termination of the boundary scan -/

/-- C10: whenever current_index < history.length, findNextChangeIndex
returns a strictly larger index bounded by history.length, so the scan
loop's value is independent of the fuel once the fuel exceeds the remaining
distance — the while loop terminates with current_index = history.length. -/
theorem boundary_scan_terminates (history : List HistoryItem) (c : Nat) :
    (c < history.length →
      c < findNextChangeIndex history c ∧ findNextChangeIndex history c ≤ history.length) ∧
    (∀ f₁ f₂ : Nat, history.length - c < f₁ → history.length - c < f₂ →
      changeIndicesLoop history c f₁ = changeIndicesLoop history c f₂) :=
  ⟨fun h => findNextChangeIndex_progress history c h,
   fun f₁ f₂ h1 h2 => changeIndicesLoop_fuel history f₁ f₂ c h1 h2⟩

/-- C10 witness: on a concrete two-snapshot history, from index 0 the next
change index is strictly larger and bounded by the length, and the loop's
output is the same for fuels 3 and 5. -/
theorem boundary_scan_terminates_example :
    (0 : Nat) < ([⟨0, "bean_machine", 0, some []⟩,
      ⟨0, "Bident-of-Thassa.local", 0, some []⟩] : List HistoryItem).length ∧
    (0 < findNextChangeIndex
        [⟨0, "bean_machine", 0, some []⟩, ⟨0, "Bident-of-Thassa.local", 0, some []⟩] 0 ∧
      findNextChangeIndex
        [⟨0, "bean_machine", 0, some []⟩, ⟨0, "Bident-of-Thassa.local", 0, some []⟩] 0 ≤
        ([⟨0, "bean_machine", 0, some []⟩,
          ⟨0, "Bident-of-Thassa.local", 0, some []⟩] : List HistoryItem).length) ∧
    ([⟨0, "bean_machine", 0, some []⟩,
      ⟨0, "Bident-of-Thassa.local", 0, some []⟩] : List HistoryItem).length - 0 < 3 ∧
    ([⟨0, "bean_machine", 0, some []⟩,
      ⟨0, "Bident-of-Thassa.local", 0, some []⟩] : List HistoryItem).length - 0 < 5 ∧
    changeIndicesLoop
      [⟨0, "bean_machine", 0, some []⟩, ⟨0, "Bident-of-Thassa.local", 0, some []⟩] 0 3 =
    changeIndicesLoop
      [⟨0, "bean_machine", 0, some []⟩, ⟨0, "Bident-of-Thassa.local", 0, some []⟩] 0 5 :=
  ⟨by decide,
   (boundary_scan_terminates
     [⟨0, "bean_machine", 0, some []⟩, ⟨0, "Bident-of-Thassa.local", 0, some []⟩] 0).1
     (by decide),
   by decide, by decide,
   (boundary_scan_terminates
     [⟨0, "bean_machine", 0, some []⟩, ⟨0, "Bident-of-Thassa.local", 0, some []⟩] 0).2
     3 5 (by decide) (by decide)⟩
